import Mathlib

/-!
Verification of the secure-key container of the sodium-wrapper repository
(`src/include/key.h`, class `Sodium::Key`), as a shallow embedding.

Modelling conventions:
* A byte buffer is a `List Nat` (byte values; no arithmetic is performed on
  bytes except xor/or in the constant-time comparison, where the operations
  are the bitwise ones of the C code).
* `std::string` passwords are modelled by their byte sequences
  (`password.data()` / `password.size()` is all the C code reads).
* The mprotect-backed access state maintained by the allocator
  (`noaccess()` / `readonly()` / `readwrite()` in `key.h`) is an explicit
  `AccessState` field.
* The identity of the underlying guarded allocation (the value of
  `keydata.data()`, used by the tests to check that copies live at distinct
  addresses) is an explicit `alloc : Option Nat` field; fresh allocations
  draw identifiers from a monotone counter, `none` means no backing
  allocation.
* `crypto_pwhash` is a libsodium primitive external to the repository; it is
  an oracle parameter `PwHash` receiving exactly the arguments the C call
  site passes (output length, password bytes, salt bytes, opslimit,
  memlimit, algorithm id) and returning the C return code together with the
  bytes it deposits in the output buffer.  Writing through the output
  pointer can never change the buffer's length, which `writeBuf` enforces.
* `randombytes_buf` is likewise an oracle `rnd : Nat → Nat` giving the byte
  written at each index.
-/

namespace SodiumWrapper

/-- Access state of the protected memory page holding the key bytes, as
toggled by `noaccess()` / `readonly()` / `readwrite()` in `key.h`. -/
inductive AccessState : Type
  | ReadWrite
  | ReadOnly
  | NoAccess
deriving DecidableEq, Repr

/-- Shallow embedding of `Sodium::Key` (src/include/key.h): the byte buffer
`keydata`, the mprotect access state of its page, and the identity of the
underlying guarded allocation. -/
structure Key : Type where
  keydata : List Nat
  access : AccessState
  alloc : Option Nat
deriving DecidableEq, Repr

/-- Oracle type for libsodium's `crypto_pwhash`: arguments are output
length, password bytes, salt bytes, opslimit, memlimit, algorithm id; the
result is the C return code (0 on success) and the bytes deposited in the
output buffer. -/
def PwHash : Type :=
  Nat → List Nat → List Nat → Nat → Nat → Nat → Int × List Nat

/-- Value of `crypto_pwhash_SALTBYTES`, bound in `key.h` as
`Key::KEYSIZE_SALT`. -/
def KEYSIZE_SALT : Nat := 16

/-- Value of `crypto_pwhash_MEMLIMIT_INTERACTIVE` from sodium.h. -/
def crypto_pwhash_MEMLIMIT_INTERACTIVE : Nat := 67108864

/-- Value of `crypto_pwhash_OPSLIMIT_INTERACTIVE` from sodium.h. -/
def crypto_pwhash_OPSLIMIT_INTERACTIVE : Nat := 2

/-- Value of `crypto_pwhash_MEMLIMIT_MODERATE` from sodium.h. -/
def crypto_pwhash_MEMLIMIT_MODERATE : Nat := 268435456

/-- Value of `crypto_pwhash_OPSLIMIT_MODERATE` from sodium.h. -/
def crypto_pwhash_OPSLIMIT_MODERATE : Nat := 3

/-- Value of `crypto_pwhash_MEMLIMIT_SENSITIVE` from sodium.h. -/
def crypto_pwhash_MEMLIMIT_SENSITIVE : Nat := 1073741824

/-- Value of `crypto_pwhash_OPSLIMIT_SENSITIVE` from sodium.h. -/
def crypto_pwhash_OPSLIMIT_SENSITIVE : Nat := 4

/-- Value of `crypto_pwhash_ALG_DEFAULT` from sodium.h. -/
def crypto_pwhash_ALG_DEFAULT : Nat := 2

/-- The strength of the key derivation efforts for `setpass()`
(`enum class Strength { low, medium, high }` in `key.h`). -/
inductive Strength : Type
  | low
  | medium
  | high
deriving DecidableEq, Repr

/-- Underlying integral value of the scoped enum constant (C++ gives the
enumerators of `enum class Strength` the values 0, 1, 2). -/
def Strength.code : Strength → Nat
  | .low => 0
  | .medium => 1
  | .high => 2

/-- The `switch (strength)` at the top of `Key::setpass`: maps the integral
strength value to `(strength_mem, strength_cpu)`; the `default` branch
(reachable in C++ by casting an out-of-range integer to the enum) yields
`none`, on which `setpass` throws "wrong strength". -/
def strengthParams : Nat → Option (Nat × Nat)
  | 0 => some (crypto_pwhash_MEMLIMIT_INTERACTIVE, crypto_pwhash_OPSLIMIT_INTERACTIVE)
  | 1 => some (crypto_pwhash_MEMLIMIT_MODERATE, crypto_pwhash_OPSLIMIT_MODERATE)
  | 2 => some (crypto_pwhash_MEMLIMIT_SENSITIVE, crypto_pwhash_OPSLIMIT_SENSITIVE)
  | _ => none

/-- The recoverable errors `Key::setpass` signals by throwing
`std::runtime_error` (wrong strength, wrong salt size, `crypto_pwhash`
returned nonzero). -/
inductive KeyError : Type
  | wrongStrength
  | wrongSaltSize
  | pwhashFailed
deriving DecidableEq, Repr

/-- Writing `out` through a C output pointer into a buffer `buf` of fixed
size: position `i < buf.length` receives `out[i]` when present, otherwise
keeps its old byte; the buffer's length cannot change. -/
def writeBuf (buf out : List Nat) : List Nat :=
  (List.range buf.length).map (fun i => out.getD i (buf.getD i 0))

namespace Key

/-- The accessor `Key::size()`: number of bytes stored in the key. -/
def size (k : Key) : Nat := k.keydata.length

/-- The transition `Key::readwrite()`: mark the page read/writable. -/
def readwrite (k : Key) : Key := { k with access := .ReadWrite }

/-- The transition `Key::readonly()`: mark the page read-only. -/
def readonly (k : Key) : Key := { k with access := .ReadOnly }

/-- The transition `Key::noaccess()`: mark the page non-accessible. -/
def noaccess (k : Key) : Key := { k with access := .NoAccess }

/-- The method `Key::initialize()`:
`randombytes_buf(keydata.data(), keydata.size())` fills the existing
buffer with bytes from the random source, index by index. -/
def refillRandom (rnd : Nat → Nat) (k : Key) : Key :=
  { k with keydata := (List.range k.keydata.length).map rnd }

/-- The constructor `Key(std::size_t key_size, bool init=true)`:
`keydata(key_size)` value-initializes `key_size` zero bytes in a fresh
allocation (identifier `aid`), in the allocator's initial read/write
state; when `init` holds, the constructor body runs `initialize()` then
`readonly()`. -/
def mkKey (keySize : Nat) (rnd : Nat → Nat) (init : Bool) (aid : Nat) : Key :=
  let k : Key := { keydata := List.replicate keySize 0,
                   access := .ReadWrite,
                   alloc := some aid }
  if init then (k.refillRandom rnd).readonly else k

/-- The method `Key::destroy()`: `readwrite()` then
`sodium_memzero(keydata.data(), keydata.size())`, zeroing every byte and
leaving the size unchanged. -/
def destroy (k : Key) : Key :=
  let k1 := k.readwrite
  { k1 with keydata := List.replicate k1.keydata.length 0 }

/-- The method `Key::setpass(password, salt, strength)` (key.h lines
148-185), faithfully ordered: the `switch` on the strength value first
(throwing "wrong strength" from the `default` branch), then the salt
length check (throwing "wrong salt size"), then `readwrite()`, then the
`crypto_pwhash` call (throwing on nonzero return after the buffer may have
been written), then `readonly()`.  The result pairs the error thrown (if
any) with the key object as the call leaves it. -/
def setpass (f : PwHash) (k : Key) (password : List Nat) (salt : List Nat)
    (strength : Nat) : Option KeyError × Key :=
  match strengthParams strength with
  | none => (some .wrongStrength, k)
  | some (strength_mem, strength_cpu) =>
    if salt.length ≠ KEYSIZE_SALT then (some .wrongSaltSize, k)
    else
      let k1 := k.readwrite
      let r := f k1.keydata.length password salt strength_cpu strength_mem
                 crypto_pwhash_ALG_DEFAULT
      let k2 : Key := { k1 with keydata := writeBuf k1.keydata r.2 }
      if r.1 ≠ 0 then (some .pwhashFailed, k2)
      else (none, k2.readonly)

end Key

/-- Constant-time predicate of the tests (`sodium_is_zero`): true when
every byte of the buffer is zero. -/
def isAllZero (l : List Nat) : Bool := l.all (fun b => b == 0)

/-- The access-state transitions of `Key` that a caller can interleave
between construction and the first deriving call, plus `destroy()`; none
of them writes nonzero bytes. -/
inductive PassiveOp : Type
  | toNoaccess
  | toReadonly
  | toReadwrite
  | doDestroy
deriving DecidableEq, Repr

/-- Apply one passive operation to a key. -/
def applyPassiveOp : PassiveOp → Key → Key
  | .toNoaccess, k => k.noaccess
  | .toReadonly, k => k.readonly
  | .toReadwrite, k => k.readwrite
  | .doDestroy, k => k.destroy

/-- Apply a sequence of passive operations to a key, left to right. -/
def applyPassiveOps (ops : List PassiveOp) (k : Key) : Key :=
  ops.foldl (fun k op => applyPassiveOp op k) k

/-- The copy constructor `Key(const Key &other) = default` (key.h line
111): member-wise copy of the `key_t` vector, which obtains a fresh page
from the protected-memory allocator (identified here by the next counter
value `ctr`) and copies the bytes into it; the freshly `sodium_malloc`ed
page starts in the read/write state.  The `const` source cannot be
modified by the call.  Returns the copy together with the advanced
counter.  (Precondition not modelled: the source page must not be
NoAccess, or the hardware traps.) -/
def copyKey (k : Key) (ctr : Nat) : Key × Nat :=
  ({ keydata := k.keydata, access := .ReadWrite, alloc := some ctr }, ctr + 1)

/-- Modelled from the spec: move construction and move assignment for the
key class are exercised by `sodium_test_key_move_ctor` and
`sodium_test_key_move_assignment` in `src/tests/test_key.cpp`, but the
class implementing them is not among the sources under review
(`src/include/key.h` only declares the copy operations).  Per the spec, a
move transfers the allocation handle and the byte content to the
destination and leaves the source as a valid, independent, zero-length
empty key with no backing allocation.  Returns (destination, source after
the move). -/
def moveKey (k : Key) : Key × Key :=
  ({ keydata := k.keydata, access := k.access, alloc := k.alloc },
   { keydata := [], access := .ReadWrite, alloc := none })

/-- Modelled from the spec: the body of
`operator==(const Sodium::Key&, const Sodium::Key&)` is only declared in
`key.h` (line 267) and its translation unit is not among the sources under
review.  Per the spec it is a constant-time byte comparison in the style
of `sodium_memcmp`: every byte position of the two buffers is visited,
differences are accumulated bitwise (`acc | (x ^ y)`), and there is no
early exit at the first differing byte.  The first component is the
accumulated difference (0 exactly when the visited bytes all agree); the
second component counts the byte positions visited, i.e. the number of
loop iterations the comparison executes. -/
def ctScan : List Nat → List Nat → Nat × Nat
  | x :: xs, y :: ys =>
    let r := ctScan xs ys
    (r.1 ||| (x ^^^ y), r.2 + 1)
  | _, _ => (0, 0)

/-- Modelled from the spec: key equality compares the sizes and then the
byte buffers through the constant-time scan. -/
def keyEq (k1 k2 : Key) : Bool :=
  k1.size == k2.size && (ctScan k1.keydata k2.keydata).1 == 0

/-- Concrete `crypto_pwhash` stand-in that always succeeds and fills the
buffer with ones; used to exercise the theorems on executable inputs. -/
def pwhashConst : PwHash :=
  fun n _ _ _ _ _ => (0, List.replicate n 1)

/-- Concrete `crypto_pwhash` stand-in that always succeeds and encodes its
password, salt and cost arguments injectively into the first output
position; used to exercise the derivation-sensitivity theorem on
executable inputs. -/
def pwhashEncode : PwHash :=
  fun n pw salt ops mem _ =>
    (0, Nat.pair (Nat.pair (Encodable.encode pw) (Encodable.encode salt))
          (Nat.pair ops mem) :: List.replicate (n - 1) 0)

/-- Concrete `crypto_pwhash` stand-in that always fails (as
`crypto_pwhash` does when it cannot allocate its working memory) without
depositing any bytes. -/
def pwhashFail : PwHash :=
  fun _ _ _ _ _ _ => (-1, [])

/- Basic lemmas about the embedding. -/

theorem writeBuf_length (buf out : List Nat) :
    (writeBuf buf out).length = buf.length := by
  simp [writeBuf]

theorem writeBuf_eq_of_length (buf out : List Nat)
    (h : out.length = buf.length) : writeBuf buf out = out := by
  apply List.ext_getElem
  · simp [writeBuf, h]
  · intro i h1 h2
    simp only [writeBuf, List.getElem_map, List.getElem_range]
    rw [List.getD_eq_getElem]

theorem Key.size_readwrite (k : Key) : k.readwrite.size = k.size := rfl

theorem Key.size_readonly (k : Key) : k.readonly.size = k.size := rfl

theorem Key.size_noaccess (k : Key) : k.noaccess.size = k.size := rfl

theorem Key.size_refillRandom (rnd : Nat → Nat) (k : Key) :
    (k.refillRandom rnd).size = k.size := by
  simp [Key.refillRandom, Key.size]

theorem Key.size_destroy (k : Key) : k.destroy.size = k.size := by
  simp [Key.destroy, Key.readwrite, Key.size]

theorem Key.destroy_eq (k : Key) :
    k.destroy = { keydata := List.replicate k.keydata.length 0,
                  access := .ReadWrite,
                  alloc := k.alloc } := by
  simp [Key.destroy, Key.readwrite]

theorem Key.size_setpass (f : PwHash) (k : Key) (pw salt : List Nat)
    (sc : Nat) : (k.setpass f pw salt sc).2.size = k.size := by
  unfold Key.setpass
  rcases h : strengthParams sc with _ | ⟨mem, cpu⟩
  · rfl
  · simp only
    by_cases hs : salt.length ≠ KEYSIZE_SALT
    · simp [hs]
    · simp only [hs, if_false]
      split <;>
        simp [Key.size, Key.readonly, Key.readwrite, writeBuf_length]

theorem applyPassiveOps_keydata_zero (ops : List PassiveOp) (k : Key) (n : Nat)
    (h : k.keydata = List.replicate n 0) :
    (applyPassiveOps ops k).keydata = List.replicate n 0 := by
  induction ops generalizing k with
  | nil => exact h
  | cons op rest ih =>
    show (applyPassiveOps rest (applyPassiveOp op k)).keydata = _
    apply ih
    cases op <;>
      simp [applyPassiveOp, Key.noaccess, Key.readonly, Key.readwrite,
        Key.destroy_eq, h]

theorem strengthParams_of_code (s : Strength) :
    ∃ mem cpu, strengthParams s.code = some (mem, cpu) := by
  cases s <;> exact ⟨_, _, rfl⟩

theorem strengthParams_code_inj (s t : Strength)
    (h : strengthParams s.code = strengthParams t.code) : s = t := by
  cases s <;> cases t <;> first
    | rfl
    | exact absurd h (by decide)

theorem setpass_ok_state (f : PwHash) (k : Key) (pw salt : List Nat)
    (sc mem cpu : Nat) (hp : strengthParams sc = some (mem, cpu))
    (hs : salt.length = KEYSIZE_SALT) :
    (k.setpass f pw salt sc).2.keydata
      = writeBuf k.keydata (f k.size pw salt cpu mem crypto_pwhash_ALG_DEFAULT).2 := by
  unfold Key.setpass
  rw [hp]
  simp only [hs, ne_eq, not_true_eq_false, if_false]
  split <;> simp [Key.readwrite, Key.readonly, Key.size]

theorem setpass_ok_keydata (f : PwHash) (k : Key) (pw salt : List Nat)
    (sc mem cpu : Nat) (hp : strengthParams sc = some (mem, cpu))
    (hs : salt.length = KEYSIZE_SALT)
    (hwf : (f k.size pw salt cpu mem crypto_pwhash_ALG_DEFAULT).2.length = k.size) :
    (k.setpass f pw salt sc).2.keydata
      = (f k.size pw salt cpu mem crypto_pwhash_ALG_DEFAULT).2 := by
  rw [setpass_ok_state f k pw salt sc mem cpu hp hs]
  exact writeBuf_eq_of_length _ _ (by simpa [Key.size] using hwf)

theorem ctScan_steps (a b : List Nat) :
    (ctScan a b).2 = min a.length b.length := by
  induction a generalizing b with
  | nil => cases b <;> simp [ctScan]
  | cons x xs ih =>
    cases b with
    | nil => simp [ctScan]
    | cons y ys =>
      simp only [ctScan, ih, List.length_cons]
      omega

theorem nat_or_eq_zero (m n : Nat) : m ||| n = 0 ↔ m = 0 ∧ n = 0 := by
  constructor
  · intro h
    constructor
    · apply Nat.eq_of_testBit_eq
      intro i
      have h2 := congrArg (fun x => Nat.testBit x i) h
      simp only [Nat.testBit_or, Nat.zero_testBit, Bool.or_eq_false_iff] at h2
      simp [h2.1]
    · apply Nat.eq_of_testBit_eq
      intro i
      have h2 := congrArg (fun x => Nat.testBit x i) h
      simp only [Nat.testBit_or, Nat.zero_testBit, Bool.or_eq_false_iff] at h2
      simp [h2.2]
  · rintro ⟨rfl, rfl⟩
    rfl

theorem ctScan_diff_zero (a b : List Nat) (h : a.length = b.length) :
    ((ctScan a b).1 = 0 ↔ a = b) := by
  induction a generalizing b with
  | nil =>
    cases b with
    | nil => simp [ctScan]
    | cons y ys => simp at h
  | cons x xs ih =>
    cases b with
    | nil => simp at h
    | cons y ys =>
      simp only [ctScan, nat_or_eq_zero, Nat.xor_eq_zero, List.cons.injEq]
      rw [ih ys (by simpa using h)]
      tauto

theorem strengthParams_eq_none_iff (sc : Nat) :
    strengthParams sc = none ↔ sc ≠ 0 ∧ sc ≠ 1 ∧ sc ≠ 2 := by
  match sc with
  | 0 => simp [strengthParams]
  | 1 => simp [strengthParams]
  | 2 => simp [strengthParams]
  | n + 3 =>
    refine ⟨fun _ => ⟨by omega, by omega, by omega⟩, fun _ => rfl⟩

theorem setpass_fst_eq (f : PwHash) (k : Key) (pw salt : List Nat)
    (sc : Nat) :
    (k.setpass f pw salt sc).1 =
      match strengthParams sc with
      | none => some KeyError.wrongStrength
      | some (mem, cpu) =>
        if salt.length ≠ KEYSIZE_SALT then some KeyError.wrongSaltSize
        else if (f k.size pw salt cpu mem crypto_pwhash_ALG_DEFAULT).1 ≠ 0
          then some KeyError.pwhashFailed
          else none := by
  unfold Key.setpass
  cases hp : strengthParams sc with
  | none => rfl
  | some p =>
    obtain ⟨mem, cpu⟩ := p
    by_cases hs : salt.length ≠ KEYSIZE_SALT
    · simp [hs]
    · simp only [hs, if_false]
      simp only [Key.readwrite, Key.size]
      split <;> simp_all

/-- C1: `destroy()` zeroes every byte of the key while preserving its
size, behaves identically from whatever access state (ReadWrite, ReadOnly
or NoAccess) the key was in before the call, and is idempotent: a second
consecutive `destroy()` returns with no error the very same all-zero key
of the same size. -/
theorem destroy_idempotent (k : Key) :
    k.destroy.keydata = List.replicate k.size 0
    ∧ k.destroy.size = k.size
    ∧ k.destroy.destroy = k.destroy
    ∧ ∀ s : AccessState, ({ k with access := s } : Key).destroy = k.destroy := by
  refine ⟨by simp [Key.destroy_eq, Key.size], Key.size_destroy k, ?_, ?_⟩
  · simp [Key.destroy_eq, Key.size]
  · intro s
    simp [Key.destroy_eq]

/-- C5: constructing a key of any length with the randomizing constructor
(`Key(length)`, i.e. `init = true`) yields `size() = length`, and the
buffer is not all-zero provided the random source delivered at least one
nonzero byte among the `length` bytes drawn (the negligible all-zero
random draw being the claim's explicit exemption). -/
theorem mkKey_randomized (n : Nat) (rnd : Nat → Nat) (aid : Nat) :
    (Key.mkKey n rnd true aid).size = n
    ∧ ((∃ i, i < n ∧ rnd i ≠ 0) →
        isAllZero (Key.mkKey n rnd true aid).keydata = false) := by
  constructor
  · simp [Key.mkKey, Key.refillRandom, Key.readonly, Key.size]
  · rintro ⟨i, hi, hne⟩
    simp only [Key.mkKey, Key.refillRandom, Key.readonly, isAllZero,
      List.length_replicate, if_true]
    rw [List.all_eq_false]
    refine ⟨rnd i, List.mem_map.mpr ⟨i, List.mem_range.mpr hi, rfl⟩, ?_⟩
    simpa using hne

/-- C5 witness: a 32-byte randomized key from a random source whose byte
at index 0 is 7 has size 32 and is not all-zero. -/
theorem mkKey_randomized_witness :
    (Key.mkKey 32 (fun i => 7 - i) true 0).size = 32
    ∧ isAllZero (Key.mkKey 32 (fun i => 7 - i) true 0).keydata = false := by
  have h := mkKey_randomized 32 (fun i => 7 - i) 0
  exact ⟨h.1, h.2 ⟨0, by decide, by decide⟩⟩

/-- C6: a key constructed without randomization (`Key(length, false)`) is
all-zero with `size() = length`, and stays all-zero with unchanged size
under any sequence of the operations a caller can interleave before
`initialize()` or `setpass()` (the access-state transitions, and
`destroy()` which rewrites zeros with zeros). -/
theorem mkKey_noinit_all_zero (n : Nat) (rnd : Nat → Nat) (aid : Nat)
    (ops : List PassiveOp) :
    (Key.mkKey n rnd false aid).keydata = List.replicate n 0
    ∧ (Key.mkKey n rnd false aid).size = n
    ∧ (applyPassiveOps ops (Key.mkKey n rnd false aid)).keydata
        = List.replicate n 0
    ∧ (applyPassiveOps ops (Key.mkKey n rnd false aid)).size = n
    ∧ isAllZero (applyPassiveOps ops (Key.mkKey n rnd false aid)).keydata
        = true := by
  have h0 : (Key.mkKey n rnd false aid).keydata = List.replicate n 0 := by
    simp [Key.mkKey]
  have h1 := applyPassiveOps_keydata_zero ops _ n h0
  refine ⟨h0, by simp [Key.size, h0], h1, by simp [Key.size, h1], ?_⟩
  rw [h1]
  simp [isAllZero]

/-- C7: the length of a key never changes after construction: the random
refill (`initialize()`), password derivation (`setpass`, on every one of
its outcomes), `destroy()` and the three access-state transitions all
preserve `size()`. -/
theorem size_never_changes (k : Key) (rnd : Nat → Nat) (f : PwHash)
    (pw salt : List Nat) (sc : Nat) :
    (k.refillRandom rnd).size = k.size
    ∧ ((k.setpass f pw salt sc).2).size = k.size
    ∧ k.destroy.size = k.size
    ∧ k.noaccess.size = k.size
    ∧ k.readonly.size = k.size
    ∧ k.readwrite.size = k.size :=
  ⟨Key.size_refillRandom rnd k, Key.size_setpass f k pw salt sc,
   Key.size_destroy k, rfl, rfl, rfl⟩

/-- C3: `setpass` raises a recoverable error exactly in three cases: the
strength value is not one of low/medium/high (wrong strength), the salt
size differs from `KEYSIZE_SALT` (wrong salt size, checked only once the
strength is recognized), or `crypto_pwhash` returns nonzero (derivation
failed); with a recognized strength, a correctly sized salt and a zero
return from `crypto_pwhash`, the call succeeds with no error. -/
theorem setpass_error_cases (f : PwHash) (k : Key) (pw salt : List Nat)
    (sc : Nat) :
    ((k.setpass f pw salt sc).1 = some KeyError.wrongStrength
        ↔ sc ≠ Strength.low.code ∧ sc ≠ Strength.medium.code
          ∧ sc ≠ Strength.high.code)
    ∧ ((k.setpass f pw salt sc).1 = some KeyError.wrongSaltSize
        ↔ (strengthParams sc).isSome = true ∧ salt.length ≠ KEYSIZE_SALT)
    ∧ (∀ mem cpu, strengthParams sc = some (mem, cpu) →
        salt.length = KEYSIZE_SALT →
        (((k.setpass f pw salt sc).1 = some KeyError.pwhashFailed
            ↔ (f k.size pw salt cpu mem crypto_pwhash_ALG_DEFAULT).1 ≠ 0)
         ∧ ((k.setpass f pw salt sc).1 = none
            ↔ (f k.size pw salt cpu mem crypto_pwhash_ALG_DEFAULT).1 = 0))) := by
  rw [setpass_fst_eq]
  cases hp : strengthParams sc with
  | none =>
    have hc := (strengthParams_eq_none_iff sc).mp hp
    refine ⟨?_, ?_, ?_⟩
    · simpa [Strength.code] using hc
    · simp [hp]
    · intro mem cpu hmc
      exact absurd hmc (by simp)
  | some p =>
    obtain ⟨mem, cpu⟩ := p
    have hv : ¬ (sc ≠ 0 ∧ sc ≠ 1 ∧ sc ≠ 2) := by
      intro hc
      rw [(strengthParams_eq_none_iff sc).mpr hc] at hp
      exact Option.noConfusion hp
    refine ⟨?_, ?_, ?_⟩
    · by_cases hs : salt.length ≠ KEYSIZE_SALT
      · simpa [hs, Strength.code] using hv
      · simp only [hs, if_false]
        constructor
        · intro h
          split at h <;> simp_all
        · intro hc
          exact absurd hc (by simpa [Strength.code] using hv)
    · by_cases hs : salt.length ≠ KEYSIZE_SALT
      · simp [hs]
      · simp only [hs, if_false, and_false, iff_false]
        intro h
        split at h <;> simp_all
    · intro mem2 cpu2 hmc hs
      injection hmc with h2
      obtain ⟨rfl, rfl⟩ : mem2 = mem ∧ cpu2 = cpu :=
        ⟨(congrArg Prod.fst h2).symm, (congrArg Prod.snd h2).symm⟩
      constructor
      · simp only [hs, ne_eq, not_true_eq_false, if_false]
        split <;> simp_all
      · simp only [hs, ne_eq, not_true_eq_false, if_false]
        split <;> simp_all

/-- C3 witness: with a recognized strength but a two-byte salt, `setpass`
on a concrete key reports the wrong-salt-size error. -/
theorem setpass_error_cases_witness :
    ((Key.mkKey 8 (fun _ => 3) false 0).setpass pwhashConst [1, 2]
        [2, 3] 1).1 = some KeyError.wrongSaltSize :=
  (setpass_error_cases pwhashConst (Key.mkKey 8 (fun _ => 3) false 0)
      [1, 2] [2, 3] 1).2.1.mpr (by decide)

/-- C4: when `setpass` rejects its arguments (unrecognized strength value
or wrong salt size), it throws before the `readwrite()` transition and
before any write: the key after the failed call is exactly the key from
before it, byte content and access state included. -/
theorem setpass_validation_failure_preserves (f : PwHash) (k : Key)
    (pw salt : List Nat) (sc : Nat)
    (h : (k.setpass f pw salt sc).1 = some KeyError.wrongStrength
       ∨ (k.setpass f pw salt sc).1 = some KeyError.wrongSaltSize) :
    (k.setpass f pw salt sc).2 = k := by
  rcases hp : strengthParams sc with _ | ⟨mem, cpu⟩
  · unfold Key.setpass
    rw [hp]
  · by_cases hs : salt.length = KEYSIZE_SALT
    · exfalso
      rw [setpass_fst_eq, hp] at h
      simp only [hs, ne_eq, not_true_eq_false, if_false] at h
      rcases h with h | h <;> (split at h <;> simp_all)
    · unfold Key.setpass
      rw [hp]
      simp [hs]

/-- C4 witness: a failed call with a two-byte salt leaves a concrete
uninitialized key exactly as it was. -/
theorem setpass_validation_failure_preserves_witness :
    ((Key.mkKey 8 (fun _ => 3) false 1).setpass pwhashConst [1] [2, 3] 0).2
      = Key.mkKey 8 (fun _ => 3) false 1 :=
  setpass_validation_failure_preserves pwhashConst
    (Key.mkKey 8 (fun _ => 3) false 1) [1] [2, 3] 0 (Or.inr (by decide))

/-- C2: password-based derivation through `setpass` is deterministic and
input-sensitive.  For any derivation function writing exactly `n` bytes
(`hwf`, as `crypto_pwhash` does) that is collision-free on its password,
salt and cost arguments at output length `n` (`hinj`, the defining
property of a key derivation function), two calls with identical
password, salt and strength on two keys of size `n` store identical byte
content, while changing exactly one of password, salt or strength changes
the stored bytes — for strength because the `switch` in `setpass` maps
distinct strengths to distinct `(memlimit, opslimit)` cost pairs. -/
theorem setpass_deterministic_and_sensitive
    (f : PwHash) (n : Nat)
    (hwf : ∀ qpw qsalt ops mem,
      (f n qpw qsalt ops mem crypto_pwhash_ALG_DEFAULT).2.length = n)
    (hinj : ∀ qa qb ra rb oa ob ma mb,
        (f n qa ra oa ma crypto_pwhash_ALG_DEFAULT).2
          = (f n qb rb ob mb crypto_pwhash_ALG_DEFAULT).2 →
        qa = qb ∧ ra = rb ∧ oa = ob ∧ ma = mb)
    (k1 k2 : Key) (h1 : k1.size = n) (h2 : k2.size = n)
    (pw pwB salt saltB : List Nat) (s sB : Strength)
    (hs : salt.length = KEYSIZE_SALT) (hsB : saltB.length = KEYSIZE_SALT) :
    ((k1.setpass f pw salt s.code).2.keydata
        = (k2.setpass f pw salt s.code).2.keydata)
    ∧ (pw ≠ pwB → (k1.setpass f pw salt s.code).2.keydata
        ≠ (k2.setpass f pwB salt s.code).2.keydata)
    ∧ (salt ≠ saltB → (k1.setpass f pw salt s.code).2.keydata
        ≠ (k2.setpass f pw saltB s.code).2.keydata)
    ∧ (s ≠ sB → (k1.setpass f pw salt s.code).2.keydata
        ≠ (k2.setpass f pw salt sB.code).2.keydata) := by
  obtain ⟨mem, cpu, hp⟩ := strengthParams_of_code s
  obtain ⟨memB, cpuB, hpB⟩ := strengthParams_of_code sB
  have e1 : ∀ (kk : Key), kk.size = n → ∀ qpw qsalt,
      qsalt.length = KEYSIZE_SALT →
      (kk.setpass f qpw qsalt s.code).2.keydata
        = (f n qpw qsalt cpu mem crypto_pwhash_ALG_DEFAULT).2 := by
    intro kk hk qpw qsalt hq
    rw [setpass_ok_keydata f kk qpw qsalt s.code mem cpu hp hq
      (by rw [hk]; exact hwf qpw qsalt cpu mem), hk]
  have e2 : ∀ (kk : Key), kk.size = n → ∀ qpw qsalt,
      qsalt.length = KEYSIZE_SALT →
      (kk.setpass f qpw qsalt sB.code).2.keydata
        = (f n qpw qsalt cpuB memB crypto_pwhash_ALG_DEFAULT).2 := by
    intro kk hk qpw qsalt hq
    rw [setpass_ok_keydata f kk qpw qsalt sB.code memB cpuB hpB hq
      (by rw [hk]; exact hwf qpw qsalt cpuB memB), hk]
  refine ⟨?_, ?_, ?_, ?_⟩
  · rw [e1 k1 h1 pw salt hs, e1 k2 h2 pw salt hs]
  · intro hne heq
    rw [e1 k1 h1 pw salt hs, e1 k2 h2 pwB salt hs] at heq
    exact hne (hinj _ _ _ _ _ _ _ _ heq).1
  · intro hne heq
    rw [e1 k1 h1 pw salt hs, e1 k2 h2 pw saltB hsB] at heq
    exact hne (hinj _ _ _ _ _ _ _ _ heq).2.1
  · intro hne heq
    rw [e1 k1 h1 pw salt hs, e2 k2 h2 pw salt hs] at heq
    obtain ⟨-, -, hcpu, hmem⟩ := hinj _ _ _ _ _ _ _ _ heq
    apply hne
    apply strengthParams_code_inj
    rw [hp, hpB, hmem, hcpu]

/-- C2 witness: with the injective executable derivation stand-in
`pwhashEncode` on 32-byte keys, a derivation with password `[1]` and a
derivation with password `[2]` (same salt, same strength) store different
bytes. -/
theorem setpass_deterministic_and_sensitive_witness :
    ((Key.mkKey 32 (fun _ => 0) false 0).setpass pwhashEncode [1]
        (List.replicate 16 0) Strength.medium.code).2.keydata
      ≠ ((Key.mkKey 32 (fun _ => 0) false 1).setpass pwhashEncode [2]
        (List.replicate 16 0) Strength.medium.code).2.keydata := by
  refine (setpass_deterministic_and_sensitive pwhashEncode 32 ?_ ?_
      (Key.mkKey 32 (fun _ => 0) false 0) (Key.mkKey 32 (fun _ => 0) false 1)
      (by decide) (by decide) [1] [2] (List.replicate 16 0)
      (1 :: List.replicate 15 0) Strength.medium Strength.low
      (by decide) (by decide)).2.1 (by decide)
  · intro qpw qsalt ops mem
    simp [pwhashEncode]
  · intro qa qb ra rb oa ob ma mb heq
    simp only [pwhashEncode, List.cons.injEq, and_true] at heq
    obtain ⟨hab, hom⟩ := Nat.pair_eq_pair.mp heq
    obtain ⟨ha, hb⟩ := Nat.pair_eq_pair.mp hab
    obtain ⟨ho, hm⟩ := Nat.pair_eq_pair.mp hom
    exact ⟨Encodable.encode_injective ha, Encodable.encode_injective hb,
      ho, hm⟩

/-- C8: moving a key transfers exactly the original byte content, size and
allocation handle to the destination and leaves the source as a valid
zero-length empty key with no backing allocation, so the destination and
the moved-from source never share an allocation. -/
theorem moveKey_transfers (k : Key) :
    (moveKey k).1.keydata = k.keydata
    ∧ (moveKey k).1.size = k.size
    ∧ (moveKey k).1.alloc = k.alloc
    ∧ (moveKey k).2.size = 0
    ∧ (moveKey k).2.keydata = []
    ∧ ∀ i, (moveKey k).1.alloc = some i → (moveKey k).2.alloc ≠ some i := by
  refine ⟨rfl, rfl, rfl, rfl, rfl, ?_⟩
  intro i _
  simp [moveKey]

/-- C8 witness: moving a concrete 4-byte key leaves a source that does not
share the destination's allocation. -/
theorem moveKey_transfers_witness :
    (moveKey (Key.mkKey 4 (fun _ => 9) true 5)).2.alloc ≠ some 5 :=
  (moveKey_transfers (Key.mkKey 4 (fun _ => 9) true 5)).2.2.2.2.2 5
    (by decide)

/-- C9: the defaulted copy constructor yields a key whose byte content and
size equal the source's, held at a freshly allocated page whose identity
differs from the source's allocation (the counter value is fresh: every
live allocation identifier lies below it); the `const` source is not
modified. -/
theorem copyKey_distinct_allocation (k : Key) (ctr : Nat)
    (hlive : ∀ i, k.alloc = some i → i < ctr) :
    (copyKey k ctr).1.keydata = k.keydata
    ∧ (copyKey k ctr).1.size = k.size
    ∧ (copyKey k ctr).1.alloc ≠ k.alloc := by
  refine ⟨rfl, rfl, ?_⟩
  intro hEq
  have hk : k.alloc = some ctr := hEq.symm
  exact absurd (hlive ctr hk) (by omega)

/-- C9 witness: copying a concrete randomized 4-byte key under a fresh
counter yields equal bytes and size at a distinct allocation. -/
theorem copyKey_distinct_allocation_witness :
    (copyKey (Key.mkKey 4 (fun _ => 2) true 0) 1).1.keydata
        = (Key.mkKey 4 (fun _ => 2) true 0).keydata
    ∧ (copyKey (Key.mkKey 4 (fun _ => 2) true 0) 1).1.size
        = (Key.mkKey 4 (fun _ => 2) true 0).size
    ∧ (copyKey (Key.mkKey 4 (fun _ => 2) true 0) 1).1.alloc
        ≠ (Key.mkKey 4 (fun _ => 2) true 0).alloc :=
  copyKey_distinct_allocation (Key.mkKey 4 (fun _ => 2) true 0) 1
    (fun i h => by
      have h0 : (some 0 : Option Nat) = some i := h
      injection h0 with h1
      omega)

/-- C10: the key equality comparison visits every byte position with no
early exit: the number of comparison steps it executes depends only on
the buffer lengths, never on where (or whether) the first differing byte
occurs; and the accumulated difference is zero exactly when the byte
buffers are equal, so `keyEq` decides content equality without leaking a
prefix-match length through its iteration count. -/
theorem keyEq_constant_time (a b c d : List Nat)
    (hab : a.length = b.length) (hcd : c.length = d.length)
    (hac : a.length = c.length) :
    (ctScan a b).2 = (ctScan c d).2
    ∧ ((ctScan a b).1 = 0 ↔ a = b)
    ∧ ∀ k1 k2 : Key, (keyEq k1 k2 = true ↔ k1.keydata = k2.keydata) := by
  refine ⟨?_, ctScan_diff_zero a b hab, ?_⟩
  · rw [ctScan_steps, ctScan_steps]
    omega
  · intro k1 k2
    constructor
    · intro h
      simp only [keyEq, Bool.and_eq_true, beq_iff_eq] at h
      exact (ctScan_diff_zero k1.keydata k2.keydata h.1).mp h.2
    · intro h
      have hz : (ctScan k2.keydata k2.keydata).1 = 0 :=
        (ctScan_diff_zero k2.keydata k2.keydata rfl).mpr rfl
      simp [keyEq, Key.size, h, hz]

/-- C10 witness: a pair differing in the first byte and a pair differing
in the last byte take the same number of comparison steps. -/
theorem keyEq_constant_time_witness :
    (ctScan [1, 2, 3] [9, 2, 3]).2 = (ctScan [1, 2, 3] [1, 2, 9]).2 :=
  (keyEq_constant_time [1, 2, 3] [9, 2, 3] [1, 2, 3] [1, 2, 9]
    rfl rfl rfl).1

end SodiumWrapper
